import Mathlib

/-!
# Verification of the f90nml namelist parser core (`f90nml/parser.py`)

This file gives a shallow embedding of the value-merging, index-parsing,
array-placement and patch-emission logic of the `Parser` module, and proves
the specification claims about them.

Python values flowing through the parser are modelled by the inductive type
`Value` below: `Value.null` is Python's `None` (the spec's `unset`),
`Value.scalar` is any non-container scalar (the concrete scalar payload is
irrelevant to the merging/placement logic, which only branches on
`None`/`list`/`dict`-ness), `Value.list` is a Python list and `Value.dict`
is a `Namelist`/`dict` modelled as an insertion-ordered association list
(Python dict keys are unique and keep insertion order; updating an existing
key keeps its position).
-/

set_option maxHeartbeats 1000000

namespace F90nml

/-- Model of the Python values manipulated by the parser. -/
inductive Value where
  | null : Value
  | scalar : Int → Value
  | list : List Value → Value
  | dict : List (String × Value) → Value

/-- Dict lookup `d[key]` on an insertion-ordered association list (Python dict
lookup; keys are unique in a Python dict, so first match suffices). -/
def alGet : List (String × Value) → String → Option Value
  | [], _ => none
  | (k, v) :: rest, key => if k = key then some v else alGet rest key

/-- Dict update `d[key] = v` on an insertion-ordered association list: an existing key
keeps its position, a new key is appended (Python dict update semantics). -/
def alSet : List (String × Value) → String → Value → List (String × Value)
  | [], key, v => [(key, v)]
  | (k, w) :: rest, key, v =>
      if k = key then (key, v) :: rest else (k, w) :: alSet rest key v

/-- The coercion `[src]` applied by `merge_values` to non-list arguments
(`if not isinstance(src, list): src = [src]`). -/
def wrap : Value → List Value
  | .list l => l
  | v => [v]

mutual

/-- Embeds `merge_lists` (parser.py:803-819).  The Python code first pads the
shorter of the two lists **at the end** with `None` (`l_min.extend(None ...)`)
so both have the length of the longer, then overwrites `new[i]` pointwise via
the dict/list/None dispatch; `mergeOne` is that per-position dispatch.  The
cons-recursion below is the same function: a missing position on either side
behaves as the padded `None`. -/
def merge_lists (s n : List Value) : List Value :=
  match s, n with
  | [], [] => []
  | [], n :: ns => mergeOne .null n :: merge_lists [] ns
  | s :: ss, [] => mergeOne s .null :: merge_lists ss []
  | s :: ss, n :: ns => mergeOne s n :: merge_lists ss ns
termination_by (sizeOf n, sizeOf s)
decreasing_by
  all_goals simp_wf
  all_goals simp [Prod.lex_iff]
  all_goals omega

/-- The per-position merge of `merge_lists`'s loop body (parser.py:809-817):
both dicts → `merge_dicts`, both lists → `merge_lists`, newer non-`None`
wins, newer `None` defers to the older entry. -/
def mergeOne (s n : Value) : Value :=
  match s, n with
  | .dict sd, .dict nd => .dict (merge_dicts sd nd)
  | .list sl, .list nl => .list (merge_lists sl nl)
  | s, .null => s
  | _, n => n
termination_by (sizeOf n, sizeOf s)
decreasing_by
  all_goals simp_wf
  all_goals simp [Prod.lex_iff]
  all_goals omega

/-- The dispatch of `merge_dicts` on one colliding key (parser.py:826-829):
if both sides are dicts, recurse; otherwise `merge_values(src[key],
patch[key])` runs, which wraps each side into a singleton list and merges
the two lists. -/
def merge_entry (sv pv : Value) : Value :=
  match sv, pv with
  | .dict sd, .dict pd => .dict (merge_dicts sd pd)
  | s, p => .list (merge_lists (wrap s) (wrap p))
termination_by (sizeOf pv + 3, sizeOf sv)
decreasing_by
  all_goals simp_wf
  all_goals apply Prod.Lex.left
  all_goals first
    | omega
    | (simp; omega)
    | (have hwrap : sizeOf (wrap p) ≤ sizeOf p + 2 := by
         cases p <;> simp [wrap] <;> omega
       omega)

/-- Embeds `merge_dicts` (parser.py:822-833): for each key of `patch`, in
order, either merge the two values for a colliding key via `merge_entry`,
or insert the new key. -/
def merge_dicts (src patch : List (String × Value)) : List (String × Value) :=
  match patch with
  | [] => src
  | (k, pv) :: rest =>
      let src' :=
        match alGet src k with
        | some sv => alSet src k (merge_entry sv pv)
        | none => alSet src k pv
      merge_dicts src' rest
termination_by (sizeOf patch, sizeOf src)
decreasing_by
  all_goals simp_wf
  all_goals apply Prod.Lex.left
  all_goals
    have hk : 1 ≤ sizeOf k := by cases k; simp
  all_goals
    have hr : 1 ≤ sizeOf rest := by cases rest <;> simp <;> omega
  all_goals simp at hk ⊢ <;> omega

end

/-- Embeds `merge_values` (parser.py:790-800): two dicts merge as dicts;
otherwise each side is wrapped into a singleton list if it is not already a
list, and the two lists are merged. -/
def merge_values (src new : Value) : Value :=
  match src, new with
  | .dict s, .dict n => .dict (merge_dicts s n)
  | s, n => .list (merge_lists (wrap s) (wrap n))

/-- Embeds `delist` (parser.py:836-845): `[]` becomes `None`, a singleton
list becomes its sole element, anything longer stays a list. -/
def delist (values : List Value) : Value :=
  match values with
  | [] => .null
  | [x] => x
  | _ => .list values

/-- Embeds the value finalisation at the end of `parse_variable`
(parser.py:582-587): a non-empty patch value list replaces the parsed
values (`if patch_values:` — Python truthiness, so `None` and `[]` do not
replace), and an unindexed variable (`v_idx` is `None`; a present `FIndex`
instance is truthy, as Python objects are by default) is `delist`ed while
an indexed variable keeps its list. -/
def finalize_values (patch_values : Option (List Value)) (indexed : Bool)
    (v_values : List Value) : Value :=
  let vv := match patch_values with
    | some pv => if pv.isEmpty then v_values else pv
    | none => v_values
  if indexed then .list vv else delist vv

/-- Python `isinstance(v, dict)`. -/
def isDict : Value → Bool
  | .dict _ => true
  | _ => false

/-- Python `isinstance(v, list)`. -/
def isList : Value → Bool
  | .list _ => true
  | _ => false

/-- Right-padding of a list with `None` placeholders up to a requested
length, as performed by `l_min.extend(None for i in range(len(l_min),
len(l_max)))` in `merge_lists` (parser.py:807). -/
def padNulls (l : List Value) (len : Nat) : List Value :=
  l ++ List.replicate (len - l.length) .null

/-- Spec-side description of list merging: both lists are padded **at the
end** with `unset` to the longer length and then merged pointwise. -/
def merge_lists_spec (s n : List Value) : List Value :=
  List.zipWith mergeOne (padNulls s (max s.length n.length))
    (padNulls n (max s.length n.length))

/-- Spec-side description of key-by-key dict merging: the value of the
merged dict at any key is the recursive merge when the key collides, and
the single present value otherwise. -/
def dictMergedAt (src patch : List (String × Value)) (k : String) : Option Value :=
  match alGet src k, alGet patch k with
  | some sv, some pv => some (merge_entry sv pv)
  | some sv, none => some sv
  | none, some pv => some pv
  | none, none => none

/-- The positionwise disjointness hypothesis of C4: at every position held
by both lists, at most one of the two holds a non-`unset` entry. -/
def rangeDisjoint (a b : List Value) : Prop :=
  ∀ (i : Nat) (ha : i < a.length) (hb : i < b.length),
    a[i] = Value.null ∨ b[i] = Value.null

/-! ## Start-index reconciliation (`parse_variable`, parser.py:404-461) -/

/-- Embeds the start-index reconciliation loop of `parse_variable`
(parser.py:408-414): for each dimension common to the prior recorded
start-index vector `p_idx` and the new index's first vector, the new first
index becomes the minimum of the non-`None` entries (`None` when both are
`None`); dimensions of the new vector beyond the zipped length are kept
unchanged. -/
def reconcile_first (p_idx vfirst : List (Option Int)) : List (Option Int) :=
  (List.zipWith (fun p v =>
      match p, v with
      | none, none => none
      | some a, none => some a
      | none, some b => some b
      | some a, some b => some (min a b)) p_idx vfirst)
    ++ vfirst.drop (min p_idx.length vfirst.length)

/-- One step of the vector resize loop of `parse_variable`
(parser.py:417-420): when both the prior start `i_p` and the reconciled
start `i_v` are integers and `i_v < i_p`, a pad of `i_p - i_v` `None`
entries is prepended to the existing value. -/
def prepadStep (acc : List Value) (pv : Option Int × Option Int) : List Value :=
  match pv with
  | (some ip, some iv) =>
      if iv < ip then List.replicate (ip - iv).toNat .null ++ acc else acc
  | _ => acc

/-- Embeds the vector resize of `parse_variable` (parser.py:417-420),
folding `prepadStep` over the zipped prior/reconciled start vectors. -/
def resize_prepad (p_idx newFirst : List (Option Int)) (val : List Value) :
    List Value :=
  (p_idx.zip newFirst).foldl prepadStep val

/-- Embeds the re-index of an unindexed assignment following an indexed one
(parser.py:451-461): each dimension's new start is `default_start_index`
and the existing value is prepended with `None`s where that is lower than
the recorded prior start.  (A recorded `None` prior start would make the
Python comparison `i_v < i_p` raise `TypeError`; `prepadStep` models that
case as no padding, and it is unreachable for wholly integer indices.) -/
def reindex_unindexed (dsi : Int) (p_start : List (Option Int))
    (val : List Value) : List Value :=
  resize_prepad p_start (p_start.map (fun _ => some dsi)) val

/-! ## Indexed value placement (`append_value` / `pad_array`,
parser.py:731-787)

Coordinates are pairs `(i_v, i_s)` of a generated index and the resolved
start index of that dimension.  Subtractions `i_v - i_s` are clamped to
`Nat`; for `i_v < i_s` Python would index from the end of the list (or
raise), a situation the index generator never produces since every
generated coordinate is at least the dimension's start.  At non-leaf
levels Python requires every visited element to be a list (it would raise
`AttributeError`/`TypeError` otherwise); the embedding leaves a non-list
element unchanged there, and the growth theorems assume the well-formed
depth the parser maintains. -/

/-- Embeds `pad_array` (parser.py:775-787): extend the current level to
cover index `i_v - i_s` (with empty sublists at non-leaf levels, `None` at
the leaf level) and recurse into every element. -/
def pad_array (v : List Value) (idx : List (Int × Int)) : List Value :=
  match idx with
  | [] => v
  | [(iv, istart)] =>
      v ++ List.replicate ((iv - istart + 1).toNat - v.length) Value.null
  | (iv, istart) :: c2 :: rest =>
      let v2 := v ++ List.replicate ((iv - istart + 1).toNat - v.length)
        (Value.list [])
      v2.map (fun e => match e with
        | .list l => .list (pad_array l (c2 :: rest))
        | e => e)
termination_by sizeOf idx
decreasing_by
  all_goals simp_wf
  all_goals simp
  all_goals omega

/-- Embeds the placement walk of `append_value` (parser.py:752-768): walk
the value tree along the coordinate, extending a level on `IndexError`
(with empty sublists at non-leaf levels and `None` entries at the leaf),
and assign the value at the deepest level. -/
def setValue (v : List Value) (idx : List (Int × Int)) (x : Value) : List Value :=
  match idx with
  | [] => v
  | [(iv, istart)] =>
      let j := (iv - istart).toNat
      if j < v.length then v.set j x
      else (v ++ List.replicate (j + 1 - v.length) Value.null).set j x
  | (iv, istart) :: c2 :: rest =>
      let j := (iv - istart).toNat
      let v2 := if j < v.length then v
                else v ++ List.replicate (j + 1 - v.length) (Value.list [])
      v2.set j (match v2.getD j Value.null with
                | .list l => .list (setValue l (c2 :: rest) x)
                | e => e)
termination_by sizeOf idx
decreasing_by
  all_goals simp_wf
  all_goals simp
  all_goals omega

/-- The coordinate orientation step of `append_value` (parser.py:739-741):
the generator's source-order coordinate and start vectors are reversed
when `row_major` is **false** (the default). -/
def orient_coords (row_major : Bool) (v_i v_s : List Int) :
    List Int × List Int :=
  if !row_major then (v_i.reverse, v_s.reverse) else (v_i, v_s)

/-- Embeds one indexed placement of `append_value` (parser.py:734-768):
start indices default to `default_start_index` where unresolved
(parser.py:736-737), the coordinates are oriented per `row_major`, the
value tree is eagerly padded unless `sparse_arrays`, and the value is
stored at the target coordinate. -/
def append_value_indexed (row_major sparse_arrays : Bool) (dsi : Int)
    (first : List (Option Int)) (v_i : List Int) (x : Value)
    (v_values : List Value) : List Value :=
  let v_s := first.map (fun (o : Option Int) => o.getD dsi)
  let vi_vs := orient_coords row_major v_i v_s
  let coords := vi_vs.1.zip vi_vs.2
  let v0 := if !sparse_arrays then pad_array v_values coords else v_values
  setValue v0 coords x

/-- The unindexed placement of `append_value` (parser.py:769-770): a plain
append. -/
def append_value_unindexed (v_values : List Value) (x : Value) : List Value :=
  v_values ++ [x]

mutual

/-- The "never shrinks" order on value trees: a list may only map to a list
of at least the same length whose common positions are related; non-list
values impose nothing. -/
def shapeLe (a b : Value) : Bool :=
  match a, b with
  | .list l, .list m => shapeLeList l m
  | .list _, _ => false
  | _, _ => true

def shapeLeList (l m : List Value) : Bool :=
  match l, m with
  | [], _ => true
  | _ :: _, [] => false
  | x :: xs, y :: ys => shapeLe x y && shapeLeList xs ys

end

@[simp] theorem shapeLe_null_left (b : Value) : shapeLe .null b = true := rfl

@[simp] theorem shapeLe_scalar_left (n : Int) (b : Value) :
    shapeLe (.scalar n) b = true := rfl

@[simp] theorem shapeLe_dict_left (d : List (String × Value)) (b : Value) :
    shapeLe (.dict d) b = true := rfl

@[simp] theorem shapeLe_list_list (l m : List Value) :
    shapeLe (.list l) (.list m) = shapeLeList l m := rfl

@[simp] theorem shapeLe_list_null (l : List Value) :
    shapeLe (.list l) .null = false := rfl

@[simp] theorem shapeLe_list_scalar (l : List Value) (n : Int) :
    shapeLe (.list l) (.scalar n) = false := rfl

@[simp] theorem shapeLe_list_dict (l : List Value) (d : List (String × Value)) :
    shapeLe (.list l) (.dict d) = false := rfl

@[simp] theorem shapeLeList_nil_left (m : List Value) :
    shapeLeList [] m = true := by cases m <;> rfl

@[simp] theorem shapeLeList_cons_nil (x : Value) (xs : List Value) :
    shapeLeList (x :: xs) [] = false := rfl

@[simp] theorem shapeLeList_cons_cons (x y : Value) (xs ys : List Value) :
    shapeLeList (x :: xs) (y :: ys) = (shapeLe x y && shapeLeList xs ys) := rfl

/-- The depth discipline the parser maintains for indexed variables: with
`d` remaining coordinate levels, every element at a non-leaf level is a
list and leaf-level cells are non-lists. -/
def wellDepthB : Nat → List Value → Bool
  | 0, _ => true
  | 1, v => v.all (fun x => !isList x)
  | d + 2, v => v.all (fun x => match x with
      | .list l => wellDepthB (d + 1) l
      | _ => false)

/-! ## Index parsing (`parse_index`, parser.py:600-655)

The token cursor is a `List String` of upcoming tokens; `update_tokens` in
parse-only mode (no patch file) advances past whitespace and comment
tokens.  Python's `int()` on a tokenizer token accepts an optional sign
followed by decimal digits. -/

/-- Characters of Python's `string.whitespace`. -/
def isWs (c : Char) : Bool :=
  c = ' ' || c = '\t' || c = '\n' || c = '\r' || c = '\x0b' || c = '\x0c'

/-- A token skipped by `update_tokens`: its first character is whitespace
or the default comment character `'!'` (parser.py:701).  Tokenizer tokens
are never empty. -/
def isSkipTok (t : String) : Bool :=
  match t.data with
  | [] => false
  | c :: _ => isWs c || c = '!'

/-- The numeric value of a non-empty all-digit character run. -/
def digitsVal : List Char → Option Nat
  | [] => none
  | c :: cs => if (c :: cs).all Char.isDigit then
      some ((c :: cs).foldl (fun a d => a * 10 + (d.toNat - 48)) 0) else none

/-- Python `int(tok)` on a tokenizer token: an optional sign followed by
one or more decimal digits, `ValueError` (`none`) otherwise. -/
def pyint (s : String) : Option Int :=
  match s.data with
  | [] => none
  | c :: cs =>
      if c = '-' then (digitsVal cs).map (fun n => -(n : Int))
      else if c = '+' then (digitsVal cs).map (fun n => (n : Int))
      else (digitsVal (c :: cs)).map (fun n => (n : Int))

/-- Embeds `update_tokens` in parse-only mode: yield the next non-skipped token
and the remaining stream, or `none` on `StopIteration`. -/
def nextTok : List String → Option (String × List String)
  | [] => none
  | t :: ts => if isSkipTok t then nextTok ts else some (t, ts)

/-- The failure modes of `parse_index`: a `ValueError` raised with a
formatted message, a re-raised `int()` conversion `ValueError` (whose
message does not name the variable), or `StopIteration`. -/
inductive IndexErr where
  | msg (s : String)
  | intErr (s : String)
  | stop
deriving Repr, DecidableEq

/-- The stride section of `parse_index` (parser.py:632-652): an optional
`: stride` (which must be an explicit non-zero integer), followed by the
mandatory `,`/`)` terminator check. -/
def parse_index_stride (v_name : String) (i_start i_end : Option Int)
    (tok : String) (toks : List String) :
    Except IndexErr ((Option Int × Option Int × Option Int) × String × List String) :=
  if tok = ":" then
    match nextTok toks with
    | none => .error .stop
    | some (t2, r2) =>
      match pyint t2 with
      | some k =>
        if k = 0 then .error (.msg s!"{v_name} stride index cannot be zero.")
        else
          match nextTok r2 with
          | none => .error .stop
          | some (t3, r3) =>
            if t3 = "," ∨ t3 = ")" then .ok ((i_start, i_end, some k), t3, r3)
            else .error (.msg s!"{v_name} index did not terminate correctly.")
      | none =>
        if t2 = ")" then .error (.msg s!"{v_name} stride index cannot be implicit.")
        else .error (.intErr t2)
  else
    if tok = "," ∨ tok = ")" then .ok ((i_start, i_end, none), tok, toks)
    else .error (.msg s!"{v_name} index did not terminate correctly.")

/-- The end-index section of `parse_index` (parser.py:616-630): after `:`
an explicit end yields `1 + end`, a `:` in place of the end fails (implicit
end with stride), a terminator leaves the end absent; without `:`, a
*truthy* present start (`if i_start:` — Python truthiness, so a start of
`0` does not count) makes the index a single-index range `1 + start`. -/
def parse_index_end (v_name : String) (i_start : Option Int)
    (tok : String) (toks : List String) :
    Except IndexErr ((Option Int × Option Int × Option Int) × String × List String) :=
  if tok = ":" then
    match nextTok toks with
    | none => .error .stop
    | some (t2, r2) =>
      match pyint t2 with
      | some m =>
        match nextTok r2 with
        | none => .error .stop
        | some (t3, r3) => parse_index_stride v_name i_start (some (1 + m)) t3 r3
      | none =>
        if t2 = ":" then
          .error (.msg s!"{v_name} end index cannot be implicit when using stride.")
        else if ¬ (t2 = "," ∨ t2 = ")") then .error (.intErr t2)
        else parse_index_stride v_name i_start none t2 r2
  else if tok = "," ∨ tok = ")" then
    parse_index_stride v_name i_start
      (match i_start with
        | some n => if n ≠ 0 then some (1 + n) else none
        | none => none) tok toks
  else
    parse_index_stride v_name i_start none tok toks

/-- Embeds `parse_index` (parser.py:600-655): parse one Fortran dimension
index `start[:end[:stride]]` into a triplet, returning the terminating
token and remaining stream on success. -/
def parse_index (v_name : String) (toks : List String) :
    Except IndexErr ((Option Int × Option Int × Option Int) × String × List String) :=
  match nextTok toks with
  | none => .error .stop
  | some (tok, rest) =>
    match pyint tok with
    | some n =>
      match nextTok rest with
      | none => .error .stop
      | some (t2, r2) => parse_index_end v_name (some n) t2 r2
    | none =>
      if tok = "," ∨ tok = ")" then
        .error (.msg s!"{v_name} index cannot be empty.")
      else if ¬ (tok = ":") then .error (.intErr tok)
      else parse_index_end v_name none tok rest

/-- The well-formed single-dimension index grammar accepted by
`parse_index`: `start`, `:`, `:end`, `start:`, `start:end`, and the stride
forms with an explicit end and non-zero stride, each terminated by `,` or
`)`. -/
inductive WFIndex : List String → Prop where
  | single (s t : String) (rest : List String) (n : Int)
      (hs : pyint s = some n) (ht : t = "," ∨ t = ")") :
      WFIndex (s :: t :: rest)
  | colonOnly (t : String) (rest : List String) (ht : t = "," ∨ t = ")") :
      WFIndex (":" :: t :: rest)
  | colonEnd (m t : String) (rest : List String) (em : Int)
      (hm : pyint m = some em) (ht : t = "," ∨ t = ")") :
      WFIndex (":" :: m :: t :: rest)
  | startColon (s t : String) (rest : List String) (n : Int)
      (hs : pyint s = some n) (ht : t = "," ∨ t = ")") :
      WFIndex (s :: ":" :: t :: rest)
  | startEnd (s m t : String) (rest : List String) (n em : Int)
      (hs : pyint s = some n) (hm : pyint m = some em)
      (ht : t = "," ∨ t = ")") :
      WFIndex (s :: ":" :: m :: t :: rest)
  | startEndStride (s m z t : String) (rest : List String) (n em k : Int)
      (hs : pyint s = some n) (hm : pyint m = some em)
      (hz : pyint z = some k) (hk : k ≠ 0) (ht : t = "," ∨ t = ")") :
      WFIndex (s :: ":" :: m :: ":" :: z :: t :: rest)
  | colonEndStride (m z t : String) (rest : List String) (em k : Int)
      (hm : pyint m = some em) (hz : pyint z = some k) (hk : k ≠ 0)
      (ht : t = "," ∨ t = ")") :
      WFIndex (":" :: m :: ":" :: z :: t :: rest)

/-- Success test on a `parse_index` outcome. -/
def indexOk (e : Except IndexErr
    ((Option Int × Option Int × Option Int) × String × List String)) : Bool :=
  match e with
  | .ok _ => true
  | .error _ => false

/-! ## Patch-mode token emission (`update_tokens` / `parse_variable`,
parser.py:504-729)

The patch writer is modelled over an explicit cursor: the remaining token
stream, the current and prior tokens, and the text written to the patch
file so far.  The tokenizer (which produces the stream) and
`Namelist.f90repr` (which renders patch values; both live outside this
repository's sources) are treated as inputs: a patch value is its
rendered text together with its complex-ness flag, and scalar coercion —
which never affects token consumption or patch output — is modelled as
the raw token text. -/

structure PState where
  toks : List String
  token : String
  prior : String
  out : String
deriving Repr, DecidableEq

/-- A token opening a comment run (default `comment_tokens = '!'`). -/
def isCommentTok (t : String) : Bool :=
  match t.data with
  | [] => false
  | c :: _ => c = '!'

inductive SkipRes where
  | okTok (ptoks nt : String) (rest : List String)
  | stopProtected (ptoks : String)
  | stopRaw
deriving Repr, DecidableEq

/-- The whitespace/comment skipping loop of `update_tokens`
(parser.py:701-719) in patch mode: comment tokens are accumulated up to
and including their newline, whitespace tokens are accumulated one at a
time, and the first structural token ends the run.  `stopRaw` is the
unguarded `next()` inside the comment run raising `StopIteration` (the
accumulated text is lost), `stopProtected` the guarded one (the
accumulated text is still written). -/
def skipRun (inComment : Bool) (nt : String) (toks : List String)
    (acc : String) : SkipRes :=
  if (inComment || isCommentTok nt) = true ∧ nt ≠ "\n" then
    match toks with
    | [] => .stopRaw
    | t :: ts => skipRun true t ts (acc ++ nt)
  else if (inComment || isSkipTok nt) = true then
    match toks with
    | [] => .stopProtected (acc ++ nt)
    | t :: ts => skipRun false t ts (acc ++ nt)
  else .okTok acc nt toks

inductive UpdRes where
  | next (st : PState)
  | stop (out : String)
deriving Repr, DecidableEq

/-- Embeds `update_tokens` (parser.py:690-729) in patch mode (an open
patch file).  The emitted chunk is the current token — or its override;
an empty override falls back to the token, per the Python truthiness of
`override if override else self.token` — followed by the skipped
whitespace/comment run; the leading value is dropped when `patch_skip` is
set and the upcoming token is not `=`, `(` or `%`. -/
def update_tokens (st : PState) (write_token : Bool) (override : Option String)
    (patch_skip : Bool) : UpdRes :=
  match st.toks with
  | [] => .stop st.out
  | t :: ts =>
    let patch_value := if write_token then
        (match override with
          | some o => if o = "" then st.token else o
          | none => st.token)
      else ""
    match skipRun false t ts "" with
    | .stopRaw => .stop st.out
    | .stopProtected ptoks =>
        .stop (st.out ++ (if patch_skip = false then patch_value ++ ptoks else ptoks))
    | .okTok ptoks nt rest =>
        .next { toks := rest, token := nt, prior := st.token,
                out := st.out ++
                  (if patch_skip = false ∨ nt = "=" ∨ nt = "(" ∨ nt = "%" then
                    patch_value ++ ptoks
                  else ptoks) }

/-- Embeds the token consumption of `parse_value` (parser.py:657-675) in
patch mode: a complex literal `( re , im )` consumes four more tokens,
anything else consumes nothing; the result is the raw token text (scalar
coercion is external and does not touch the stream). -/
def parse_value_m (st : PState) (write_token : Bool) (override : Option String) :
    Option (PState × String) :=
  if st.prior = "(" then
    let v_re := st.token
    match update_tokens st write_token none false with
    | .stop _ => none
    | .next st1 =>
      if st1.token = "," then
        match update_tokens st1 write_token none false with
        | .stop _ => none
        | .next st2 =>
          let v_im := st2.token
          match update_tokens st2 write_token none false with
          | .stop _ => none
          | .next st3 =>
            if st3.token = ")" then
              match update_tokens st3 write_token override false with
              | .stop _ => none
              | .next st4 => some (st4, "(" ++ v_re ++ ", " ++ v_im ++ ")")
            else none
      else none
  else some (st, st.prior)

/-- The repeat-factor handling at the top of the value loop
(parser.py:521-527): on `*` the repeat count is the parsed prior token
(`assert isinstance(n_vals, int)` — failure aborts) and the cursor
advances; otherwise a falsy `n_vals` (`None` or `0`) becomes 1. -/
def stage_star (st : PState) (nv : Option Int) : Option (PState × Int) :=
  if st.token = "*" then
    match parse_value_m st true none with
    | none => none
    | some (st1, nstr) =>
      match pyint nstr with
      | none => none
      | some kk =>
        match update_tokens st1 true none false with
        | .stop _ => none
        | .next st2 => some (st2, kk)
  else
    some (st, match nv with | none => 1 | some q => if q = 0 then 1 else q)

/-- The value-append section of the value loop (parser.py:529-551):
implicit nulls after `=`, `%` or `,`; the post-repeat-factor branch after
`*`; otherwise an explicit value via `parse_value`.  The parsed values are
accumulated as `none` (implicit null) or the raw token text. -/
def stage_append (st : PState) (n2 : Int) (vv : List (Option String)) :
    Option (PState × List (Option String)) :=
  if st.prior = "=" ∨ st.prior = "%" ∨ st.prior = "," then
    if (st.token = "," ∨ st.token = "/" ∨ st.token = "&" ∨ st.token = "$")
        ∧ ¬ (st.prior = "," ∧
          (st.token = "/" ∨ st.token = "&" ∨ st.token = "$")) then
      some (st, vv ++ List.replicate n2.toNat none)
    else some (st, vv)
  else if st.prior = "*" then
    let step1 : Option PState :=
      if ¬ (st.token = "/" ∨ st.token = "&" ∨ st.token = "$") then
        match update_tokens st true none false with
        | .stop _ => none
        | .next s => some s
      else some st
    match step1 with
    | none => none
    | some s1 =>
      if s1.token = "="
          ∨ ((s1.token = "/" ∨ s1.token = "&" ∨ s1.token = "$")
              ∧ s1.prior = "*") then
        some (s1, vv ++ List.replicate n2.toNat none)
      else
        match parse_value_m s1 true none with
        | none => none
        | some (s2, vstr) => some (s2, vv ++ List.replicate n2.toNat (some vstr))
  else
    match parse_value_m st true none with
    | none => none
    | some (s2, vstr) => some (s2, vv ++ List.replicate n2.toNat (some vstr))

/-- The patch-consumption step at the bottom of the value loop
(parser.py:559-580): while patch values remain and the current token is a
value token, the token is overridden with the rendered patch value (a
complex patch value then silently advances over the four source tokens of
the complex literal); otherwise the cursor advances with `patch_skip` set
exactly when the patch is exhausted. -/
def stage_patch (st : PState) (patch : Option (List (String × Bool)))
    (p_idx : Nat) : Option (PState × Nat) :=
  match patch with
  | some plist =>
    if plist ≠ [] then
      if p_idx < plist.length ∧ 0 < plist.length ∧ st.token ≠ "," then
        let pr := plist.getD p_idx ("", false)
        match update_tokens st true (some pr.1) false with
        | .stop _ => none
        | .next stC =>
          if pr.2 then
            match update_tokens stC false none false with
            | .stop _ => none
            | .next c1 =>
              match update_tokens c1 false none false with
              | .stop _ => none
              | .next c2 =>
                match update_tokens c2 false none false with
                | .stop _ => none
                | .next c3 =>
                  match update_tokens c3 false none false with
                  | .stop _ => none
                  | .next c4 => some (c4, p_idx + 1)
          else some (stC, p_idx + 1)
      else
        match update_tokens st true none (decide (plist.length ≤ p_idx)) with
        | .stop _ => none
        | .next stC => some (stC, p_idx)
    else
      match update_tokens st true none false with
      | .stop _ => none
      | .next stC => some (stC, p_idx)
  | none =>
    match update_tokens st true none false with
    | .stop _ => none
    | .next stC => some (stC, p_idx)

/-- Embeds the value-collection loop of `parse_variable`
(parser.py:518-580) driving the patch writer, with an explicit fuel bound
(the loop consumes at least one stream token per iteration). -/
def value_loop (fuel : Nat) (st : PState) (patch : Option (List (String × Bool)))
    (p_idx : Nat) (vv : List (Option String)) (nv : Option Int) :
    Option (PState × List (Option String) × Nat) :=
  match fuel with
  | 0 => none
  | fuel + 1 =>
    if ¬ (st.token = "=" ∨ st.token = "(" ∨ st.token = "%")
        ∨ (st.prior = "=" ∧ st.token = "(")
        ∨ (st.prior = "," ∧ st.token = "(") then
      match stage_star st nv with
      | none => none
      | some (stA, n2) =>
        match stage_append stA n2 vv with
        | none => none
        | some (stB, vv2) =>
          if stB.token = "/" ∨ stB.token = "&" ∨ stB.token = "$"
              ∨ stB.token = "=" then
            some (stB, vv2, p_idx)
          else
            match stage_patch stB patch p_idx with
            | none => none
            | some (stC, k2) => value_loop fuel stC patch k2 vv2 (some 1)
    else some (st, vv, p_idx)

/-- The token stream of the remaining values of a simple comma-separated
value statement: `, v₁ , v₂ … / trail`. -/
def sepToks (vs : List String) (trail : List String) : List String :=
  match vs with
  | [] => "/" :: trail
  | w :: ws => "," :: w :: sepToks ws trail

/-- A plain literal-value token: non-empty, not skipped, and none of the
structural tokens of the grammar. -/
def PlainTok (t : String) : Prop :=
  isSkipTok t = false ∧ t ≠ "=" ∧ t ≠ "(" ∧ t ≠ "%" ∧ t ≠ "*" ∧ t ≠ ","
    ∧ t ≠ "/" ∧ t ≠ "&" ∧ t ≠ "$"

instance (t : String) : Decidable (PlainTok t) := by
  unfold PlainTok; infer_instance

/-- Spec-side description of the text emitted for the value region of a
patched variable: from patch position `k`, with `cnt` source values left,
each source value token is replaced by the next rendered patch value while
the patch lasts and dropped afterwards, and each comma is kept exactly
while a further patch value exists. -/
def emittedPatch (ps : List String) : Nat → Nat → String
  | _, 0 => ""
  | k, 1 => if k < ps.length then ps.getD k "" else ""
  | k, cnt + 2 =>
      (if k < ps.length then ps.getD k "" else "")
        ++ (if k + 1 < ps.length then "," else "")
        ++ emittedPatch ps (if k < ps.length then k + 1 else k) (cnt + 1)

/-- The comma-separated rendering of a list of value texts. -/
def joinCommas : List String → String
  | [] => ""
  | [p] => p
  | p :: q :: rest => p ++ "," ++ joinCommas (q :: rest)

theorem mergeOne_null_left (n : Value) : mergeOne .null n = n := by
  cases n <;> simp [mergeOne]

theorem mergeOne_null_right (s : Value) : mergeOne s .null = s := by
  cases s <;> simp [mergeOne]

theorem merge_lists_nil_left (n : List Value) : merge_lists [] n = n := by
  induction n with
  | nil => simp [merge_lists]
  | cons x xs ih => simp [merge_lists, mergeOne_null_left, ih]

theorem merge_lists_nil_right (s : List Value) : merge_lists s [] = s := by
  induction s with
  | nil => simp [merge_lists]
  | cons x xs ih => simp [merge_lists, mergeOne_null_right, ih]

theorem merge_lists_spec_nil_cons (n : Value) (ns : List Value) :
    merge_lists_spec [] (n :: ns) = mergeOne .null n :: merge_lists_spec [] ns := by
  simp [merge_lists_spec, padNulls, List.replicate_succ]

theorem merge_lists_spec_cons_nil (s : Value) (ss : List Value) :
    merge_lists_spec (s :: ss) [] = mergeOne s .null :: merge_lists_spec ss [] := by
  simp [merge_lists_spec, padNulls, List.replicate_succ]

theorem merge_lists_spec_cons_cons (s n : Value) (ss ns : List Value) :
    merge_lists_spec (s :: ss) (n :: ns)
      = mergeOne s n :: merge_lists_spec ss ns := by
  simp only [merge_lists_spec, padNulls, List.length_cons, Nat.succ_max_succ,
    Nat.succ_sub_succ, List.cons_append, List.zipWith_cons_cons]

theorem merge_lists_eq_spec (s n : List Value) :
    merge_lists s n = merge_lists_spec s n := by
  induction s generalizing n with
  | nil =>
    induction n with
    | nil => simp [merge_lists, merge_lists_spec, padNulls]
    | cons y ys ihy =>
      rw [merge_lists_spec_nil_cons, ← ihy]
      simp [merge_lists]
  | cons x xs ih =>
    cases n with
    | nil =>
      rw [merge_lists_spec_cons_nil, ← ih []]
      simp [merge_lists]
    | cons y ys =>
      rw [merge_lists_spec_cons_cons, ← ih ys]
      simp [merge_lists]

theorem alGet_alSet_self (l : List (String × Value)) (k : String) (v : Value) :
    alGet (alSet l k v) k = some v := by
  induction l with
  | nil => simp [alGet, alSet]
  | cons p rest ih =>
    obtain ⟨k1, v1⟩ := p
    by_cases h : k1 = k <;> simp [alGet, alSet, h, ih]

theorem alGet_alSet_ne (l : List (String × Value)) (k k2 : String) (v : Value)
    (h : k ≠ k2) : alGet (alSet l k v) k2 = alGet l k2 := by
  induction l with
  | nil => simp [alGet, alSet, h]
  | cons p rest ih =>
    obtain ⟨k1, v1⟩ := p
    by_cases h1 : k1 = k
    · subst h1
      simp [alGet, alSet, h]
    · simp only [alSet, if_neg h1]
      by_cases h2 : k1 = k2 <;> simp [alGet, h2, ih]

theorem alGet_eq_none_of_not_mem (l : List (String × Value)) (k : String)
    (h : k ∉ l.map Prod.fst) : alGet l k = none := by
  induction l with
  | nil => simp [alGet]
  | cons p rest ih =>
    obtain ⟨k1, v1⟩ := p
    simp only [List.map_cons, List.mem_cons, not_or] at h
    have h1 : ¬ k1 = k := fun hc => h.1 hc.symm
    simp [alGet, h1, ih h.2]

theorem merge_dicts_alGet_not_mem (src patch : List (String × Value)) (k : String)
    (h : k ∉ patch.map Prod.fst) :
    alGet (merge_dicts src patch) k = alGet src k := by
  induction patch generalizing src with
  | nil => simp [merge_dicts]
  | cons p rest ih =>
    obtain ⟨k1, pv⟩ := p
    simp only [List.map_cons, List.mem_cons, not_or] at h
    have h1 : k1 ≠ k := fun hc => h.1 hc.symm
    simp only [merge_dicts]
    cases halg : alGet src k1 <;>
      simp only [halg] <;>
      rw [ih _ h.2, alGet_alSet_ne _ _ _ _ h1]

theorem merge_dicts_alGet (src patch : List (String × Value))
    (hnd : (patch.map Prod.fst).Nodup) (k : String) :
    alGet (merge_dicts src patch) k = dictMergedAt src patch k := by
  induction patch generalizing src with
  | nil =>
    cases h : alGet src k <;> simp [merge_dicts, dictMergedAt, alGet, h]
  | cons p rest ih =>
    obtain ⟨k1, pv⟩ := p
    simp only [List.map_cons, List.nodup_cons] at hnd
    by_cases hk : k = k1
    · subst hk
      simp only [merge_dicts]
      cases halg : alGet src k <;> simp only [halg]
      · rw [merge_dicts_alGet_not_mem _ _ _ hnd.1, alGet_alSet_self]
        simp [dictMergedAt, alGet, halg]
      · rw [merge_dicts_alGet_not_mem _ _ _ hnd.1, alGet_alSet_self]
        simp [dictMergedAt, alGet, halg]
    · have hk1 : ¬ k1 = k := fun hc => hk hc.symm
      simp only [merge_dicts]
      cases halg : alGet src k1 <;> simp only [halg] <;> rw [ih _ hnd.2] <;>
        cases hsrc : alGet src k <;>
        cases hrest : alGet rest k <;>
        simp [dictMergedAt, alGet, hk1, hsrc, hrest,
          alGet_alSet_ne _ _ _ _ (Ne.symm hk)]

/-- C1 (amended): `merge_values` on two lists merges them pointwise with the
shorter list **right**-padded (padded at its end) with `unset` to the longer
length; nested dicts merge key-by-key recursively; a non-`unset` entry of
the newer value wins; an `unset` entry of the newer value defers to the
older entry. -/
theorem merge_values_spec :
    (∀ s n : List Value,
        merge_values (.list s) (.list n) = .list (merge_lists_spec s n))
    ∧ (∀ s : Value, mergeOne s .null = s)
    ∧ (∀ s n : Value, (isDict s && isDict n) = false →
        (isList s && isList n) = false → n ≠ .null → mergeOne s n = n)
    ∧ (∀ sd nd, mergeOne (.dict sd) (.dict nd) = .dict (merge_dicts sd nd))
    ∧ (∀ sl nl, mergeOne (.list sl) (.list nl) = .list (merge_lists sl nl))
    ∧ (∀ src patch, (patch.map Prod.fst).Nodup →
        ∀ k, alGet (merge_dicts src patch) k = dictMergedAt src patch k) := by
  refine ⟨?_, mergeOne_null_right, ?_, ?_, ?_, merge_dicts_alGet⟩
  · intro s n
    simp [merge_values, wrap, merge_lists_eq_spec]
  · intro s n hd hl hn
    cases s <;> cases n <;> simp_all [mergeOne, isDict, isList]
  · intro sd nd; simp [mergeOne]
  · intro sl nl; simp [mergeOne]

/-- Witness for `merge_values_spec`: evaluates each hypothesised conjunct at
a concrete input. -/
theorem merge_values_spec_witness :
    mergeOne (.scalar 1) (.scalar 9) = .scalar 9
    ∧ alGet (merge_dicts [("a", .scalar 1)] [("a", .scalar 2)]) "a"
        = dictMergedAt [("a", .scalar 1)] [("a", .scalar 2)] "a" := by
  constructor
  · exact merge_values_spec.2.2.1 (.scalar 1) (.scalar 9) (by simp [isDict])
      (by simp [isList]) (by simp)
  · exact merge_values_spec.2.2.2.2.2 [("a", .scalar 1)] [("a", .scalar 2)]
      (by simp) "a"

/-- C1 counterexample: the claim says the shorter list is **left**-padded
with `unset`; the code pads at the end.  Merging `[1, 2]` with the newer
`[9]` yields `[9, 2]` — under left-padding (newer `[9]` aligned to
`[unset, 9]`) the result would have been `[1, 9]`. -/
theorem merge_values_left_pad_refuted :
    merge_values (.list [.scalar 1, .scalar 2]) (.list [.scalar 9])
      = .list [.scalar 9, .scalar 2]
    ∧ Value.list [.scalar 9, .scalar 2] ≠ .list [.scalar 1, .scalar 9] := by
  constructor
  · simp [merge_values, wrap, merge_lists, mergeOne]
  · simp

theorem mergeOne_comm_of_null (s n : Value) (h : s = Value.null ∨ n = Value.null) :
    mergeOne s n = mergeOne n s := by
  rcases h with h | h <;> subst h <;>
    rw [mergeOne_null_left, mergeOne_null_right]

theorem merge_lists_comm_of_disjoint (a b : List Value) (h : rangeDisjoint a b) :
    merge_lists a b = merge_lists b a := by
  induction a generalizing b with
  | nil => rw [merge_lists_nil_left, merge_lists_nil_right]
  | cons x xs ih =>
    cases b with
    | nil => rw [merge_lists_nil_left, merge_lists_nil_right]
    | cons y ys =>
      have hhead : x = Value.null ∨ y = Value.null := by
        have := h 0 (by simp) (by simp)
        simpa using this
      have htail : rangeDisjoint xs ys := by
        intro i hi hj
        have := h (i + 1) (by simpa using Nat.succ_lt_succ hi)
          (by simpa using Nat.succ_lt_succ hj)
        simpa using this
      simp only [merge_lists]
      rw [mergeOne_comm_of_null _ _ hhead, ih _ htail]

/-- C4: merging two list values whose non-`unset` entries occupy disjoint
position ranges is commutative. -/
theorem merge_values_comm_of_disjoint (a b : List Value) (h : rangeDisjoint a b) :
    merge_values (.list a) (.list b) = merge_values (.list b) (.list a) := by
  simp only [merge_values, wrap]
  rw [merge_lists_comm_of_disjoint a b h]

/-- Witness for `merge_values_comm_of_disjoint`: two concrete disjoint-range
partial assignments merge to the same value in either order. -/
theorem merge_values_comm_of_disjoint_witness :
    merge_values (.list [.scalar 1, .null, .null]) (.list [.null, .scalar 2])
      = merge_values (.list [.null, .scalar 2]) (.list [.scalar 1, .null, .null]) := by
  refine merge_values_comm_of_disjoint _ _ ?_
  intro i ha hb
  match i with
  | 0 => right; rfl
  | 1 => left; rfl
  | n + 2 => simp at hb

/-- C6: an unindexed variable with a single parsed value reduces to that
sole element; an explicitly indexed variable stays an array even at
length 1. -/
theorem delist_single_unindexed :
    ∀ x : Value, finalize_values none false [x] = x
      ∧ finalize_values none true [x] = .list [x] := by
  intro x
  constructor <;> simp [finalize_values, delist]

/-- C10: an unindexed variable whose parsed value list is empty finalises to
`None` (`unset`), not to an empty array. -/
theorem delist_empty_unindexed :
    delist [] = .null
    ∧ finalize_values none false [] = .null
    ∧ Value.null ≠ .list [] := by
  refine ⟨rfl, by simp [finalize_values, delist], by simp⟩

theorem foldl_prepadStep_exists (l : List (Option Int × Option Int)) :
    ∀ val : List Value, ∃ k,
      l.foldl prepadStep val = List.replicate k Value.null ++ val := by
  induction l with
  | nil => intro val; exact ⟨0, rfl⟩
  | cons p rest ih =>
    intro val
    have hstep : ∃ k0, prepadStep val p = List.replicate k0 Value.null ++ val := by
      obtain ⟨ip, iv⟩ := p
      cases ip with
      | none => exact ⟨0, rfl⟩
      | some a =>
        cases iv with
        | none => exact ⟨0, rfl⟩
        | some b =>
          by_cases h : b < a
          · exact ⟨(a - b).toNat, by simp [prepadStep, h]⟩
          · exact ⟨0, by simp [prepadStep, h]⟩
    obtain ⟨k0, hk0⟩ := hstep
    obtain ⟨k1, hk1⟩ := ih (prepadStep val p)
    refine ⟨k1 + k0, ?_⟩
    rw [List.foldl_cons, hk1, hk0, ← List.append_assoc, ← List.replicate_add]

/-- C2: start-index reconciliation is monotonic.  Resizing only prepends
`unset` placeholders (one per index between the lower new start and the
prior start) and never truncates; the reconciled start of a dimension is
the minimum of the starts seen; and the spec's concrete scenario — first
assigned at index 5, later at index 3 — yields an array covering positions
3 through 5, with position 3 taken from the later assignment and position 4
`unset`. -/
theorem start_index_reconciliation :
    (∀ (p nf : List (Option Int)) (val : List Value), ∃ k,
        resize_prepad p nf val = List.replicate k Value.null ++ val)
    ∧ (∀ (p nf : List (Option Int)) (val : List Value),
        val.length ≤ (resize_prepad p nf val).length)
    ∧ (∀ (a b : Int) (ps vs : List (Option Int)),
        reconcile_first (some a :: ps) (some b :: vs)
          = some (min a b) :: reconcile_first ps vs)
    ∧ (∀ (a b : Int) (val : List Value), b < a →
        resize_prepad [some a] [some b] val
          = List.replicate (a - b).toNat Value.null ++ val)
    ∧ merge_values
        (.list (resize_prepad [some 5] (reconcile_first [some 5] [some 3])
          [.scalar 10]))
        (.list [.scalar 20])
      = .list [.scalar 20, .null, .scalar 10] := by
  refine ⟨fun p nf val => foldl_prepadStep_exists _ val, ?_, ?_, ?_, ?_⟩
  · intro p nf val
    obtain ⟨k, hk⟩ := foldl_prepadStep_exists (p.zip nf) val
    rw [resize_prepad, hk]
    simp
  · intro a b ps vs
    simp [reconcile_first, Nat.succ_min_succ, List.drop_succ_cons]
  · intro a b val h
    simp [resize_prepad, prepadStep, h]
  · simp [reconcile_first, resize_prepad, prepadStep, merge_values, wrap]
    norm_num
    simp [List.replicate_succ, merge_lists, mergeOne]

/-- Witness for `start_index_reconciliation`: the padding clause evaluated
for starts 5 (prior) and 3 (new). -/
theorem start_index_reconciliation_witness :
    resize_prepad [some 5] [some 3] [.scalar 10]
      = List.replicate 2 Value.null ++ [.scalar 10] := by
  have h := start_index_reconciliation.2.2.2.1 5 3 [.scalar 10] (by norm_num)
  simpa using h

mutual

theorem shapeLe_refl (v : Value) : shapeLe v v = true := by
  cases v with
  | list l => rw [shapeLe]; exact shapeLeList_refl l
  | null => rfl
  | scalar n => rfl
  | dict d => rfl
termination_by sizeOf v

theorem shapeLeList_refl (l : List Value) : shapeLeList l l = true := by
  cases l with
  | nil => rfl
  | cons x xs =>
    rw [shapeLeList]
    simp only [Bool.and_eq_true]
    exact ⟨shapeLe_refl x, shapeLeList_refl xs⟩
termination_by sizeOf l

end

mutual

theorem shapeLe_trans (a b c : Value) (h1 : shapeLe a b = true)
    (h2 : shapeLe b c = true) : shapeLe a c = true := by
  cases a with
  | list la =>
    cases b with
    | list lb =>
      cases c with
      | list lc =>
        rw [shapeLe_list_list] at h1 h2 ⊢
        exact shapeLeList_trans la lb lc h1 h2
      | null => exact absurd h2 (by simp)
      | scalar n => exact absurd h2 (by simp)
      | dict d => exact absurd h2 (by simp)
    | null => exact absurd h1 (by simp)
    | scalar n => exact absurd h1 (by simp)
    | dict d => exact absurd h1 (by simp)
  | null => simp
  | scalar n => simp
  | dict d => simp
termination_by sizeOf a

theorem shapeLeList_trans (l m n : List Value) (h1 : shapeLeList l m = true)
    (h2 : shapeLeList m n = true) : shapeLeList l n = true := by
  cases l with
  | nil => simp
  | cons x xs =>
    cases m with
    | nil => exact absurd h1 (by simp)
    | cons y ys =>
      cases n with
      | nil => exact absurd h2 (by simp)
      | cons z zs =>
        rw [shapeLeList_cons_cons] at h1 h2 ⊢
        simp only [Bool.and_eq_true] at h1 h2 ⊢
        exact ⟨shapeLe_trans x y z h1.1 h2.1,
          shapeLeList_trans xs ys zs h1.2 h2.2⟩
termination_by sizeOf l

end

theorem shapeLeList_iff (a b : List Value) :
    shapeLeList a b = true ↔
      a.length ≤ b.length ∧
        ∀ (i : Nat) (h1 : i < a.length) (h2 : i < b.length),
          shapeLe a[i] b[i] = true := by
  induction a generalizing b with
  | nil =>
    constructor
    · intro _
      exact ⟨Nat.zero_le _, fun i h1 h2 => absurd h1 (Nat.not_lt_zero i)⟩
    · intro _
      simp
  | cons x xs ih =>
    cases b with
    | nil =>
      simp only [shapeLeList_cons_nil, List.length_cons, List.length_nil]
      constructor
      · intro h; cases h
      · rintro ⟨hlen, -⟩; exact absurd hlen (by omega)
    | cons y ys =>
      rw [shapeLeList_cons_cons, Bool.and_eq_true, ih]
      constructor
      · rintro ⟨hxy, hlen, hrest⟩
        refine ⟨Nat.succ_le_succ hlen, ?_⟩
        intro i h1 h2
        match i with
        | 0 => simpa using hxy
        | Nat.succ i =>
          simp only [List.getElem_cons_succ]
          exact hrest i (by simpa using h1) (by simpa using h2)
      · rintro ⟨hlen, hall⟩
        refine ⟨by simpa using hall 0 (by simp) (by simp), by simpa using hlen, ?_⟩
        intro i h1 h2
        have := hall (i + 1) (by simpa using h1) (by simpa using h2)
        simpa using this

theorem shapeLe_of_isList_false (a b : Value) (h : isList a = false) :
    shapeLe a b = true := by
  cases a <;> simp_all [isList]

theorem shapeLeList_append_right (v w : List Value) :
    shapeLeList v (v ++ w) = true := by
  induction v with
  | nil => simp
  | cons x xs ih => simp [shapeLe_refl, ih]

theorem wellDepthB_nil (d : Nat) : wellDepthB d [] = true := by
  match d with
  | 0 => rfl
  | 1 => rfl
  | d + 2 => rfl

theorem wellDepthB_one_elem (v : List Value) (h : wellDepthB 1 v = true)
    (i : Nat) (hi : i < v.length) : isList v[i] = false := by
  rw [wellDepthB, List.all_eq_true] at h
  have := h v[i] (List.getElem_mem hi)
  simpa using this

theorem wellDepthB_two_elem (d : Nat) (v : List Value)
    (h : wellDepthB (d + 2) v = true) (i : Nat) (hi : i < v.length) :
    ∃ l, v[i] = Value.list l ∧ wellDepthB (d + 1) l = true := by
  rw [wellDepthB, List.all_eq_true] at h
  have hx := h v[i] (List.getElem_mem hi)
  cases hvi : v[i] with
  | list l => exact ⟨l, rfl, by rw [hvi] at hx; simpa using hx⟩
  | null => rw [hvi] at hx; simp at hx
  | scalar n => rw [hvi] at hx; simp at hx
  | dict dd => rw [hvi] at hx; simp at hx

theorem pad_array_grows (idx : List (Int × Int)) :
    ∀ v : List Value, shapeLeList v (pad_array v idx) = true := by
  induction idx with
  | nil => intro v; simp [pad_array, shapeLeList_refl]
  | cons hd tl ih =>
    intro v
    obtain ⟨iv, istart⟩ := hd
    cases tl with
    | nil =>
      rw [pad_array]
      exact shapeLeList_append_right v _
    | cons c2 rest =>
      simp only [pad_array]
      rw [shapeLeList_iff]
      constructor
      · simp
      · intro i h1 h2
        rw [List.getElem_map, List.getElem_append_left h1]
        cases hvi : v[i] with
        | list l =>
          simp only
          rw [shapeLe_list_list]
          exact ih l
        | null => simp
        | scalar n => simp
        | dict dd => simp

theorem setValue_grows (idx : List (Int × Int)) :
    ∀ (v : List Value) (x : Value), wellDepthB idx.length v = true →
      shapeLeList v (setValue v idx x) = true := by
  induction idx with
  | nil => intro v x _; simp [setValue, shapeLeList_refl]
  | cons hd tl ih =>
    intro v x h
    obtain ⟨iv, istart⟩ := hd
    cases tl with
    | nil =>
      simp only [setValue]
      by_cases hj : (iv - istart).toNat < v.length
      · rw [if_pos hj, shapeLeList_iff]
        refine ⟨by simp, ?_⟩
        intro i h1 h2
        rw [List.getElem_set]
        by_cases hij : (iv - istart).toNat = i
        · rw [if_pos hij]
          exact shapeLe_of_isList_false _ _ (wellDepthB_one_elem v h i h1)
        · rw [if_neg hij]
          exact shapeLe_refl _
      · rw [if_neg hj, shapeLeList_iff]
        refine ⟨by simp <;> omega, ?_⟩
        intro i h1 h2
        have hij : ¬ (iv - istart).toNat = i := by omega
        rw [List.getElem_set, if_neg hij, List.getElem_append_left h1]
        exact shapeLe_refl _
    | cons c2 rest =>
      simp only [setValue]
      have hlen : (c2 :: rest).length + 1 = ((iv, istart) :: c2 :: rest).length := by
        simp
      by_cases hj : (iv - istart).toNat < v.length
      · rw [if_pos hj, shapeLeList_iff]
        refine ⟨by simp, ?_⟩
        intro i h1 h2
        rw [List.getElem_set]
        by_cases hij : (iv - istart).toNat = i
        · rw [if_pos hij]
          subst hij
          obtain ⟨l, hl, hwd⟩ := wellDepthB_two_elem rest.length v
            (by simpa using h) _ hj
          have hgd : v.getD (iv - istart).toNat Value.null = Value.list l := by
            rw [List.getD_eq_getElem?_getD, List.getElem?_eq_getElem hj, hl]
            rfl
          rw [hgd]
          simp only
          have := h1
          rw [hl, shapeLe_list_list]
          exact ih l x (by simpa using hwd)
        · rw [if_neg hij]
          exact shapeLe_refl _
      · rw [if_neg hj, shapeLeList_iff]
        refine ⟨by simp <;> omega, ?_⟩
        intro i h1 h2
        have hij : ¬ (iv - istart).toNat = i := by omega
        rw [List.getElem_set, if_neg hij, List.getElem_append_left h1]
        exact shapeLe_refl _

theorem wellDepthB_pad (idx : List (Int × Int)) :
    ∀ v : List Value, wellDepthB idx.length v = true →
      wellDepthB idx.length (pad_array v idx) = true := by
  induction idx with
  | nil => intro v h; simpa [pad_array] using h
  | cons hd tl ih =>
    intro v h
    obtain ⟨iv, istart⟩ := hd
    cases tl with
    | nil =>
      simp only [pad_array, List.length_cons, List.length_nil]
      rw [wellDepthB, List.all_append] at *
      simp only [Bool.and_eq_true]
      refine ⟨by simpa [wellDepthB] using h, ?_⟩
      rw [List.all_eq_true]
      intro x hx
      rw [List.eq_of_mem_replicate hx]
      simp [isList]
    | cons c2 rest =>
      simp only [pad_array, List.length_cons]
      rw [wellDepthB, List.all_eq_true]
      intro x hx
      rw [List.mem_map] at hx
      obtain ⟨e, he, hfe⟩ := hx
      rw [List.mem_append] at he
      rcases he with he | he
      · have hwd : wellDepthB (rest.length + 2) v = true := by simpa using h
        rw [wellDepthB, List.all_eq_true] at hwd
        have := hwd e he
        cases e with
        | list l =>
          subst hfe
          simp only
          have hl : wellDepthB (rest.length + 1) l = true := by simpa using this
          have := ih l (by simpa using hl)
          simpa using this
        | null => simp at this
        | scalar n => simp at this
        | dict dd => simp at this
      · rw [List.eq_of_mem_replicate he] at hfe
        subst hfe
        simp only
        have := ih [] (by simpa using wellDepthB_nil (rest.length + 1))
        simpa using this

/-- C3: indexed value placement never shrinks an existing array.  `pad_array`
only grows the value tree; the placement walk of `append_value` only grows
it (given the depth discipline the parser maintains); their composition in
an indexed `append_value` call only grows it; an unindexed append only
grows it; and the growth order implies the length never decreases. -/
theorem append_value_never_shrinks :
    (∀ (v : List Value) (idx : List (Int × Int)),
        shapeLeList v (pad_array v idx) = true)
    ∧ (∀ (idx : List (Int × Int)) (v : List Value) (x : Value),
        wellDepthB idx.length v = true →
        shapeLeList v (setValue v idx x) = true)
    ∧ (∀ (row_major sparse_arrays : Bool) (dsi : Int)
        (first : List (Option Int)) (v_i : List Int) (x : Value)
        (v : List Value),
        first.length = v_i.length →
        wellDepthB v_i.length v = true →
        shapeLeList v
          (append_value_indexed row_major sparse_arrays dsi first v_i x v)
          = true)
    ∧ (∀ (v : List Value) (x : Value),
        shapeLeList v (append_value_unindexed v x) = true)
    ∧ (∀ a b : List Value, shapeLeList a b = true → a.length ≤ b.length) := by
  refine ⟨fun v idx => pad_array_grows idx v, setValue_grows, ?_, ?_, ?_⟩
  · intro rm sp dsi first v_i x v hlen hwd
    simp only [append_value_indexed]
    set cds := ((orient_coords rm v_i
        (first.map (fun (o : Option Int) => o.getD dsi))).1.zip
      (orient_coords rm v_i
        (first.map (fun (o : Option Int) => o.getD dsi))).2) with hcds
    have hclen : cds.length = v_i.length := by
      rw [hcds]; cases rm <;> simp [orient_coords, hlen]
    cases sp with
    | true =>
      rw [if_neg (by simp)]
      refine setValue_grows cds v x ?_
      rw [hclen]; exact hwd
    | false =>
      rw [if_pos (by simp)]
      refine shapeLeList_trans _ (pad_array v cds) _ (pad_array_grows cds v) ?_
      refine setValue_grows cds (pad_array v cds) x ?_
      refine wellDepthB_pad cds v ?_
      rw [hclen]; exact hwd
  · intro v x
    exact shapeLeList_append_right v [x]
  · intro a b h
    exact ((shapeLeList_iff a b).mp h).1

/-- Witness for `append_value_never_shrinks`: a concrete indexed placement
at coordinate 2 (start 1) grows `[5]` to `[5, 7]`. -/
theorem append_value_never_shrinks_witness :
    shapeLeList [.scalar 5]
      (append_value_indexed false false 1 [some 1] [2] (.scalar 7) [.scalar 5])
      = true
    ∧ append_value_indexed false false 1 [some 1] [2] (.scalar 7) [.scalar 5]
      = [.scalar 5, .scalar 7] := by
  constructor
  · exact append_value_never_shrinks.2.2.1 false false 1 [some 1] [2]
      (.scalar 7) [.scalar 5] rfl (by simp [wellDepthB, isList])
  · simp [append_value_indexed, orient_coords, pad_array, setValue]

/-- C9 counterexample: with `row_major = false` (the default) the generated
coordinate `[2, 1]` **is** reversed at placement, and with
`row_major = true` it is used unreversed — the opposite of the claim. -/
theorem row_major_reversal_refuted :
    orient_coords false [2, 1] [1, 1] = ([1, 2], [1, 1])
    ∧ orient_coords true [2, 1] [1, 1] = ([2, 1], [1, 1])
    ∧ ([1, 2] : List Int) ≠ [2, 1] := by
  refine ⟨rfl, rfl, by simp⟩

/-- C9 (amended): the source-order coordinate tuple is reversed at the
point of array placement exactly when `row_major` is **false** (the
default, producing contiguity-preserving output); when `row_major` is true
the source-order coordinates are used without reversal.  Equivalently, a
default-order placement equals a row-major placement of the reversed
coordinate and start vectors. -/
theorem row_major_reversal_spec :
    (∀ v_i v_s : List Int,
        orient_coords false v_i v_s = (v_i.reverse, v_s.reverse)
        ∧ orient_coords true v_i v_s = (v_i, v_s))
    ∧ (∀ (sp : Bool) (dsi : Int) (first : List (Option Int))
        (v_i : List Int) (x : Value) (v : List Value),
        append_value_indexed false sp dsi first v_i x v
          = append_value_indexed true sp dsi first.reverse v_i.reverse x v) := by
  constructor
  · intro vi vs; exact ⟨rfl, rfl⟩
  · intro sp dsi first vi x v
    simp [append_value_indexed, orient_coords, List.map_reverse]

theorem skip_false_of_isDigit (c : Char) (h : c.isDigit = true) :
    (isWs c || (c = '!' : Bool)) = false := by
  cases hb : (isWs c || (c = '!' : Bool)) with
  | false => rfl
  | true =>
    exfalso
    rw [Bool.or_eq_true] at hb
    rcases hb with hw | hc
    · simp only [isWs, Bool.or_eq_true, decide_eq_true_eq] at hw
      rcases hw with ((((hc | hc) | hc) | hc) | hc) | hc <;>
        (subst hc; exact absurd h (by decide))
    · rw [decide_eq_true_eq] at hc
      subst hc
      exact absurd h (by decide)

theorem pyint_not_skip (s : String) (n : Int) (h : pyint s = some n) :
    isSkipTok s = false := by
  cases hd : s.data with
  | nil => rw [pyint, hd] at h; exact absurd h (by simp)
  | cons c cs =>
    simp only [pyint, hd] at h
    simp only [isSkipTok, hd]
    by_cases hm : c = '-'
    · subst hm; decide
    · by_cases hp : c = '+'
      · subst hp; decide
      · rw [if_neg hm, if_neg hp] at h
        have hdig : c.isDigit = true := by
          simp only [digitsVal] at h
          split at h
          · rename_i hall
            simp only [List.all_cons, Bool.and_eq_true] at hall
            exact hall.1
          · simp at h
        exact skip_false_of_isDigit c hdig

@[simp] theorem pyint_colon : pyint ":" = none := rfl

@[simp] theorem pyint_comma : pyint "," = none := rfl

@[simp] theorem pyint_rparen : pyint ")" = none := rfl

@[simp] theorem isSkipTok_colon : isSkipTok ":" = false := rfl

@[simp] theorem isSkipTok_comma : isSkipTok "," = false := rfl

@[simp] theorem isSkipTok_rparen : isSkipTok ")" = false := rfl

/-- C7: each listed malformed dimension index fails with a `ValueError`
whose message names the offending variable — an empty index component, a
stride with an implicit end, an implicit stride, a zero stride, and an
index not terminated by `,` or `)` — while every well-formed index parses
without error. -/
theorem parse_index_error_messages :
    (∀ (v t : String) (rest : List String), (t = "," ∨ t = ")") →
        parse_index v (t :: rest)
          = .error (.msg s!"{v} index cannot be empty."))
    ∧ (∀ (v s : String) (n : Int) (rest : List String), pyint s = some n →
        parse_index v (s :: ":" :: ":" :: rest)
          = .error (.msg s!"{v} end index cannot be implicit when using stride."))
    ∧ (∀ (v s t : String) (n m : Int) (rest : List String),
        pyint s = some n → pyint t = some m →
        parse_index v (s :: ":" :: t :: ":" :: ")" :: rest)
          = .error (.msg s!"{v} stride index cannot be implicit."))
    ∧ (∀ (v s t z : String) (n m : Int) (rest : List String),
        pyint s = some n → pyint t = some m → pyint z = some 0 →
        parse_index v (s :: ":" :: t :: ":" :: z :: rest)
          = .error (.msg s!"{v} stride index cannot be zero."))
    ∧ (∀ (v s u : String) (n : Int) (rest : List String),
        pyint s = some n → isSkipTok u = false →
        ¬ (u = "," ∨ u = ")" ∨ u = ":") →
        parse_index v (s :: u :: rest)
          = .error (.msg s!"{v} index did not terminate correctly."))
    ∧ (∀ (v : String) (toks : List String), WFIndex toks →
        indexOk (parse_index v toks) = true) := by
  have hcolon : isSkipTok ":" = false := rfl
  refine ⟨?_, ?_, ?_, ?_, ?_, ?_⟩
  · intro v t rest ht
    rcases ht with ht | ht <;> subst ht <;> rfl
  · intro v s n rest hs
    have hns := pyint_not_skip s n hs
    simp [parse_index, parse_index_end, nextTok, hns, hs, hcolon]
  · intro v s t n m rest hs htm
    have hns := pyint_not_skip s n hs
    have hnt := pyint_not_skip t m htm
    simp [parse_index, parse_index_end, parse_index_stride, nextTok,
      hns, hs, hnt, htm, hcolon]
  · intro v s t z n m rest hs htm hz
    have hns := pyint_not_skip s n hs
    have hnt := pyint_not_skip t m htm
    have hnz := pyint_not_skip z 0 hz
    simp [parse_index, parse_index_end, parse_index_stride, nextTok,
      hns, hs, hnt, htm, hnz, hz, hcolon]
  · intro v s u n rest hs hu hun
    push_neg at hun
    have hns := pyint_not_skip s n hs
    simp [parse_index, parse_index_end, parse_index_stride, nextTok,
      hns, hs, hu, hun.1, hun.2.1, hun.2.2]
  · intro v toks h
    cases h with
    | single s t rest n hs ht =>
      have hns := pyint_not_skip s n hs
      rcases ht with ht | ht <;> subst ht <;>
        simp [parse_index, parse_index_end, parse_index_stride, nextTok,
          hns, hs, indexOk]
    | colonOnly t rest ht =>
      rcases ht with ht | ht <;> subst ht <;> rfl
    | colonEnd m t rest em hm ht =>
      have hnm := pyint_not_skip m em hm
      rcases ht with ht | ht <;> subst ht <;>
        simp [parse_index, parse_index_end, parse_index_stride, nextTok,
          hnm, hm, hcolon, indexOk]
    | startColon s t rest n hs ht =>
      have hns := pyint_not_skip s n hs
      rcases ht with ht | ht <;> subst ht <;>
        simp [parse_index, parse_index_end, parse_index_stride, nextTok,
          hns, hs, hcolon, indexOk]
    | startEnd s m t rest n em hs hm ht =>
      have hns := pyint_not_skip s n hs
      have hnm := pyint_not_skip m em hm
      rcases ht with ht | ht <;> subst ht <;>
        simp [parse_index, parse_index_end, parse_index_stride, nextTok,
          hns, hs, hnm, hm, hcolon, indexOk]
    | startEndStride s m z t rest n em k hs hm hz hk ht =>
      have hns := pyint_not_skip s n hs
      have hnm := pyint_not_skip m em hm
      have hnz := pyint_not_skip z k hz
      rcases ht with ht | ht <;> subst ht <;>
        simp [parse_index, parse_index_end, parse_index_stride, nextTok,
          hns, hs, hnm, hm, hnz, hz, hk, hcolon, indexOk]
    | colonEndStride m z t rest em k hm hz hk ht =>
      have hnm := pyint_not_skip m em hm
      have hnz := pyint_not_skip z k hz
      rcases ht with ht | ht <;> subst ht <;>
        simp [parse_index, parse_index_end, parse_index_stride, nextTok,
          hnm, hm, hnz, hz, hk, hcolon, indexOk]

/-- Witness for `parse_index_error_messages`: each clause evaluated on a
concrete malformed (or well-formed) index of variable `v`. -/
theorem parse_index_error_messages_witness :
    parse_index "v" [",", "x"] = .error (.msg "v index cannot be empty.")
    ∧ parse_index "v" ["1", ":", ":", ")"]
        = .error (.msg "v end index cannot be implicit when using stride.")
    ∧ parse_index "v" ["1", ":", "5", ":", ")"]
        = .error (.msg "v stride index cannot be implicit.")
    ∧ parse_index "v" ["1", ":", "5", ":", "0", ")"]
        = .error (.msg "v stride index cannot be zero.")
    ∧ parse_index "v" ["1", "x", ")"]
        = .error (.msg "v index did not terminate correctly.")
    ∧ indexOk (parse_index "v" ["3", ":", "5", ":", "2", ")"]) = true := by
  refine ⟨?_, ?_, ?_, ?_, ?_, ?_⟩
  · exact parse_index_error_messages.1 "v" "," ["x"] (Or.inl rfl)
  · exact parse_index_error_messages.2.1 "v" "1" 1 [")"] rfl
  · exact parse_index_error_messages.2.2.1 "v" "1" "5" 1 5 [] rfl rfl
  · exact parse_index_error_messages.2.2.2.1 "v" "1" "5" "0" 1 5 [")"] rfl rfl rfl
  · exact parse_index_error_messages.2.2.2.2.1 "v" "1" "x" 1 [")"] rfl rfl
      (by simp)
  · exact parse_index_error_messages.2.2.2.2.2 "v" _
      (WFIndex.startEndStride "3" "5" "2" ")" [] 3 5 2 rfl rfl rfl
        (by norm_num) (Or.inr rfl))

/-- C8 counterexample: a single present start index of `0` (`v(0)`) does
**not** yield the single-index triplet `(0, 1, None)` — the Python
truthiness test `if i_start:` skips the rewrite for start `0`, producing
`(0, None, None)`. -/
theorem parse_index_zero_start_quirk :
    parse_index "v" ["0", ")"] = .ok ((some 0, none, none), ")", [])
    ∧ ((some 0, none, none) : Option Int × Option Int × Option Int)
        ≠ (some 0, some 1, none) := by
  refine ⟨rfl, by simp⟩

/-- C8 (amended): a present integer start with no end and no stride parses
as the single-index triplet `(start, start + 1, None)` for every
**non-zero** integer start; a zero start instead yields
`(0, None, None)`. -/
theorem parse_index_single_start (v s t : String) (n : Int)
    (rest : List String) (hs : pyint s = some n) (hn : n ≠ 0)
    (ht : t = "," ∨ t = ")") :
    parse_index v (s :: t :: rest)
      = .ok ((some n, some (1 + n), none), t, rest) := by
  have hns := pyint_not_skip s n hs
  rcases ht with ht | ht <;> subst ht <;>
    simp [parse_index, parse_index_end, parse_index_stride, nextTok,
      hns, hs, hn]

/-- Witness for `parse_index_single_start`: `v(5)` parses to
`(5, 6, None)`. -/
theorem parse_index_single_start_witness :
    parse_index "v" ["5", ")"] = .ok ((some 5, some 6, none), ")", []) := by
  have h := parse_index_single_start "v" "5" ")" 5 [] rfl (by norm_num)
    (Or.inr rfl)
  simpa using h

theorem not_comment_of_not_skip (t : String) (h : isSkipTok t = false) :
    isCommentTok t = false := by
  cases hd : t.data with
  | nil => simp [isCommentTok, hd]
  | cons c cs =>
    simp only [isSkipTok, hd, Bool.or_eq_false_iff] at h
    simp [isCommentTok, hd, h.2]

theorem skipRun_not_skip (t : String) (ts : List String) (acc : String)
    (ht : isSkipTok t = false) : skipRun false t ts acc = .okTok acc t ts := by
  have hc := not_comment_of_not_skip t ht
  rw [skipRun.eq_def]
  rw [if_neg (by simp [hc])]
  rw [if_neg (by simp [ht])]

/-- One `update_tokens` step whose upcoming token is structural (not
skipped): it writes the current token (or override) and advances. -/
theorem update_tokens_plain (t : String) (ts : List String)
    (token prior out : String) (wt : Bool) (ov : Option String) (skip : Bool)
    (ht : isSkipTok t = false) :
    update_tokens ⟨t :: ts, token, prior, out⟩ wt ov skip
      = .next ⟨ts, t, token, out ++
          (if skip = false ∨ t = "=" ∨ t = "(" ∨ t = "%" then
            (if wt then (match ov with
              | some o => if o = "" then token else o
              | none => token) else "")
          else "")⟩ := by
  have h1 := skipRun_not_skip t ts "" ht
  simp [update_tokens, h1]

@[simp] theorem isSkipTok_slash : isSkipTok "/" = false := rfl

theorem patch_map_ne_nil (ps : List String) (h : ps ≠ []) :
    ps.map (fun p => (p, false)) ≠ [] := by simp [h]

theorem patch_getD_fst (ps : List String) (k : Nat) :
    ((ps.map (fun p => (p, false))).getD k ("", false)).1 = ps.getD k "" := by
  rw [List.getD_eq_getElem?_getD, List.getD_eq_getElem?_getD, List.getElem?_map]
  cases ps[k]? <;> rfl

theorem patch_getD_snd (ps : List String) (k : Nat) :
    ((ps.map (fun p => (p, false))).getD k ("", false)).2 = false := by
  rw [List.getD_eq_getElem?_getD, List.getElem?_map]
  cases ps[k]? <;> rfl

theorem getD_ne_empty (ps : List String) (k : Nat) (hk : k < ps.length)
    (hpne : ∀ p ∈ ps, p ≠ "") : ps.getD k "" ≠ "" := by
  rw [List.getD_eq_getElem?_getD, List.getElem?_eq_getElem hk]
  exact hpne _ (List.getElem_mem hk)

/-- A value-token iteration of the loop: the current token is a plain
value token after a separator; the bottom of the loop substitutes the
next rendered patch value for it while the patch lasts, and silently
drops it afterwards. -/
theorem value_loop_stepA (fuel : Nat) (v sep o nt : String) (ts : List String)
    (ps : List String) (k : Nat) (vv : List (Option String)) (nv : Option Int)
    (hv : PlainTok v) (hsep : sep = "=" ∨ sep = ",")
    (hnv : nv = none ∨ nv = some 1)
    (hnt : isSkipTok nt = false) (hnt1 : nt = "," ∨ nt = "/")
    (hps : ps ≠ []) (hpne : ∀ p ∈ ps, p ≠ "") :
    value_loop (fuel + 1) ⟨nt :: ts, v, sep, o⟩
        (some (ps.map (fun p => (p, false)))) k vv nv
      = value_loop fuel
          ⟨ts, nt, v, o ++ (if k < ps.length then ps.getD k "" else "")⟩
          (some (ps.map (fun p => (p, false))))
          (if k < ps.length then k + 1 else k) vv (some 1) := by
  obtain ⟨h1, h2, h3, h4, h5, h6, h7, h8, h9⟩ := hv
  have hn2 : (match nv with
      | none => (1 : Int)
      | some q => if q = 0 then 1 else q) = 1 := by
    rcases hnv with rfl | rfl <;> simp
  have hc1 : sep = "=" ∨ sep = "%" ∨ sep = "," := by
    rcases hsep with rfl | rfl <;> simp
  have hstar : stage_star ⟨nt :: ts, v, sep, o⟩ nv
      = some (⟨nt :: ts, v, sep, o⟩, 1) := by
    simp only [stage_star]
    rw [if_neg (by simp [h5])]
    rw [hn2]
  have happend : stage_append ⟨nt :: ts, v, sep, o⟩ 1 vv
      = some (⟨nt :: ts, v, sep, o⟩, vv) := by
    simp only [stage_append]
    rw [if_pos (by simpa using hc1)]
    rw [if_neg (by simp [h6, h7, h8, h9])]
  by_cases hk : k < ps.length
  · have hpatch : stage_patch ⟨nt :: ts, v, sep, o⟩
        (some (ps.map (fun p => (p, false)))) k
        = some (⟨ts, nt, v, o ++ ps.getD k ""⟩, k + 1) := by
      simp only [stage_patch]
      rw [if_pos (patch_map_ne_nil ps hps)]
      rw [if_pos ⟨by simpa using hk, by simpa using List.length_pos.mpr hps,
        by simpa using h6⟩]
      rw [update_tokens_plain nt ts v sep o true
        (some ((ps.map (fun p => (p, false))).getD k ("", false)).1) false hnt]
      rw [patch_getD_snd]
      simp only [Bool.false_eq_true, if_false]
      rw [patch_getD_fst]
      have hne := getD_ne_empty ps k hk hpne
      simp only [List.getD_eq_getElem?_getD] at hne
      simp [hne]
    simp only [value_loop]
    rw [if_pos (Or.inl (by simp [h2, h3, h4]))]
    simp only [hstar, happend]
    rw [if_neg (by simp [h7, h8, h9, h2])]
    simp only [hpatch, if_pos hk]
  · have hdec : decide ((ps.map (fun p => (p, false))).length ≤ k) = true := by
      simp only [List.length_map, decide_eq_true_eq]
      omega
    have hw : ¬ ((true : Bool) = false ∨ nt = "=" ∨ nt = "(" ∨ nt = "%") := by
      rcases hnt1 with rfl | rfl <;> simp
    have hpatch : stage_patch ⟨nt :: ts, v, sep, o⟩
        (some (ps.map (fun p => (p, false)))) k
        = some (⟨ts, nt, v, o⟩, k) := by
      simp only [stage_patch]
      rw [if_pos (patch_map_ne_nil ps hps)]
      rw [if_neg (by
        simp only [List.length_map, not_and]
        intro hcond
        exact absurd hcond hk)]
      rw [hdec]
      rw [update_tokens_plain nt ts v sep o true none true hnt]
      rw [if_neg hw]
      simp
    simp only [value_loop]
    rw [if_pos (Or.inl (by simp [h2, h3, h4]))]
    simp only [hstar, happend]
    rw [if_neg (by simp [h7, h8, h9, h2])]
    simp only [hpatch, if_neg hk]
    simp

/-- A separator iteration of the loop: the prior token is the just-read
value, the current token is `,`; the value is appended to the parsed list
and the comma is written exactly while a further patch value exists. -/
theorem value_loop_stepB_comma (fuel : Nat) (vprev o nt : String)
    (ts : List String) (ps : List String) (k : Nat)
    (vv : List (Option String))
    (hv : PlainTok vprev) (hnt : isSkipTok nt = false)
    (hnt2 : nt ≠ "=" ∧ nt ≠ "(" ∧ nt ≠ "%")
    (hps : ps ≠ []) :
    value_loop (fuel + 1) ⟨nt :: ts, ",", vprev, o⟩
        (some (ps.map (fun p => (p, false)))) k vv (some 1)
      = value_loop fuel
          ⟨ts, nt, ",", o ++ (if k < ps.length then "," else "")⟩
          (some (ps.map (fun p => (p, false)))) k (vv ++ [some vprev])
          (some 1) := by
  obtain ⟨h1, h2, h3, h4, h5, h6, h7, h8, h9⟩ := hv
  have hstar : stage_star ⟨nt :: ts, ",", vprev, o⟩ (some 1)
      = some (⟨nt :: ts, ",", vprev, o⟩, 1) := by
    simp only [stage_star]
    rw [if_neg (by simp)]
    simp
  have happend : stage_append ⟨nt :: ts, ",", vprev, o⟩ 1 vv
      = some (⟨nt :: ts, ",", vprev, o⟩, vv ++ [some vprev]) := by
    simp only [stage_append]
    rw [if_neg (by simp [h2, h4, h6])]
    rw [if_neg (by simp [h5])]
    simp only [parse_value_m]
    rw [if_neg (by simp [h3])]
    simp
  have hpatch : stage_patch ⟨nt :: ts, ",", vprev, o⟩
      (some (ps.map (fun p => (p, false)))) k
      = some (⟨ts, nt, ",", o ++ (if k < ps.length then "," else "")⟩, k) := by
    simp only [stage_patch]
    rw [if_pos (patch_map_ne_nil ps hps)]
    rw [if_neg (by
      simp only [List.length_map, not_and]
      intro hc1 hc2
      simp)]
    rw [update_tokens_plain nt ts "," vprev o true none
      (decide ((ps.map (fun p => (p, false))).length ≤ k)) hnt]
    by_cases hk : k < ps.length
    · have hd : decide ((ps.map (fun p => (p, false))).length ≤ k) = false := by
        simp only [List.length_map, decide_eq_false_iff_not]
        omega
      rw [hd]
      simp [hk]
    · have hd : decide ((ps.map (fun p => (p, false))).length ≤ k) = true := by
        simp only [List.length_map, decide_eq_true_eq]
        omega
      rw [hd]
      rw [if_neg (by
        rcases hnt2 with ⟨hn1, hn2x, hn3⟩
        simp [hn1, hn2x, hn3])]
      simp [hk]
  simp only [value_loop]
  rw [if_pos (Or.inl (by simp))]
  simp only [hstar, happend]
  rw [if_neg (by simp)]
  simp only [hpatch]

/-- The terminating iteration of the loop: the prior token is the last
value, the current token is the group terminator `/`; the value is
appended and the loop exits without consuming the terminator. -/
theorem value_loop_stepB_slash (fuel : Nat) (vprev o : String)
    (ts : List String) (patch : Option (List (String × Bool))) (k : Nat)
    (vv : List (Option String)) (hv : PlainTok vprev) :
    value_loop (fuel + 1) ⟨ts, "/", vprev, o⟩ patch k vv (some 1)
      = some (⟨ts, "/", vprev, o⟩, vv ++ [some vprev], k) := by
  obtain ⟨h1, h2, h3, h4, h5, h6, h7, h8, h9⟩ := hv
  have hstar : stage_star ⟨ts, "/", vprev, o⟩ (some 1)
      = some (⟨ts, "/", vprev, o⟩, 1) := by
    simp only [stage_star]
    rw [if_neg (by simp)]
    simp
  have happend : stage_append ⟨ts, "/", vprev, o⟩ 1 vv
      = some (⟨ts, "/", vprev, o⟩, vv ++ [some vprev]) := by
    simp only [stage_append]
    rw [if_neg (by simp [h2, h4, h6])]
    rw [if_neg (by simp [h5])]
    simp only [parse_value_m]
    rw [if_neg (by simp [h3])]
    simp
  simp only [value_loop]
  rw [if_pos (Or.inl (by simp))]
  simp only [hstar, happend]
  rw [if_pos (by simp)]

/-- The value region of a patched simple value statement emits exactly the
rendered patch values and the separators between them: each source value
token is overridden while the patch lasts and silently dropped afterwards,
per `emittedPatch`. -/
theorem value_loop_emission (vs : List String) :
    ∀ (fuel : Nat) (v sep o : String) (k : Nat) (ps trail : List String)
      (vv : List (Option String)) (nv : Option Int),
      PlainTok v → (∀ w ∈ vs, PlainTok w) →
      ps ≠ [] → (∀ p ∈ ps, p ≠ "") →
      (sep = "=" ∨ sep = ",") → (nv = none ∨ nv = some 1) →
      2 * vs.length + 2 ≤ fuel →
      ∃ (vv2 : List (Option String)) (k2 : Nat) (pr : String),
        value_loop fuel ⟨sepToks vs trail, v, sep, o⟩
            (some (ps.map (fun p => (p, false)))) k vv nv
          = some (⟨trail, "/", pr, o ++ emittedPatch ps k (vs.length + 1)⟩,
              vv2, k2) := by
  induction vs with
  | nil =>
    intro fuel v sep o k ps trail vv nv hv hvs hps hpne hsep hnv hfuel
    obtain ⟨f, rfl⟩ : ∃ f, fuel = (f + 1) + 1 := ⟨fuel - 2, by omega⟩
    simp only [sepToks, List.length_nil]
    rw [value_loop_stepA (f + 1) v sep o "/" trail ps k vv nv
      ⟨hv.1, hv.2.1, hv.2.2.1, hv.2.2.2.1, hv.2.2.2.2.1, hv.2.2.2.2.2.1,
        hv.2.2.2.2.2.2.1, hv.2.2.2.2.2.2.2.1, hv.2.2.2.2.2.2.2.2⟩
      hsep hnv (by simp) (Or.inr rfl) hps hpne]
    rw [value_loop_stepB_slash f v _ trail _ _ _ hv]
    exact ⟨vv ++ [some v], if k < ps.length then k + 1 else k, v, rfl⟩
  | cons w ws ih =>
    intro fuel v sep o k ps trail vv nv hv hvs hps hpne hsep hnv hfuel
    obtain ⟨f, rfl⟩ : ∃ f, fuel = (f + 1) + 1 := ⟨fuel - 2, by omega⟩
    have hw : PlainTok w := hvs w (by simp)
    have hws : ∀ u ∈ ws, PlainTok u := fun u hu => hvs u (by simp [hu])
    simp only [sepToks, List.length_cons]
    rw [value_loop_stepA (f + 1) v sep o "," (w :: sepToks ws trail) ps k vv nv
      hv hsep hnv (by simp) (Or.inl rfl) hps hpne]
    rw [value_loop_stepB_comma f v
      (o ++ (if k < ps.length then ps.getD k "" else "")) w (sepToks ws trail)
      ps (if k < ps.length then k + 1 else k) vv hv hw.1
      ⟨hw.2.1, hw.2.2.1, hw.2.2.2.1⟩ hps]
    obtain ⟨vv2, k2, pr, hih⟩ := ih f w ","
      ((o ++ (if k < ps.length then ps.getD k "" else ""))
        ++ (if (if k < ps.length then k + 1 else k) < ps.length then "," else ""))
      (if k < ps.length then k + 1 else k) ps trail (vv ++ [some v]) (some 1)
      hw hws hps hpne (Or.inr rfl) (Or.inr rfl) (by simp at hfuel ⊢; omega)
    have hout : ((o ++ (if k < ps.length then ps.getD k "" else ""))
          ++ (if (if k < ps.length then k + 1 else k) < ps.length then ","
              else ""))
        ++ emittedPatch ps (if k < ps.length then k + 1 else k) (ws.length + 1)
        = o ++ emittedPatch ps k (ws.length + 1 + 1) := by
      by_cases hk : k < ps.length
      · simp [emittedPatch, hk, String.append_assoc]
      · have hk2 : ¬ (k + 1 < ps.length) := by omega
        simp [emittedPatch, hk, hk2, String.append_assoc]
    refine ⟨vv2, k2, pr, ?_⟩
    rw [hih, hout]

theorem emittedPatch_join (ps : List String) :
    ∀ (cnt k : Nat), ps.length - k ≤ cnt →
      emittedPatch ps k cnt = joinCommas (ps.drop k) := by
  intro cnt
  induction cnt with
  | zero =>
    intro k hk
    rw [List.drop_eq_nil_of_le (by omega)]
    rfl
  | succ cnt ihc =>
    intro k hk
    by_cases hkm : k < ps.length
    · have hdrop : ps.drop k = ps.getD k "" :: ps.drop (k + 1) := by
        rw [List.getD_eq_getElem?_getD, List.getElem?_eq_getElem hkm]
        exact List.drop_eq_getElem_cons hkm
      cases cnt with
      | zero =>
        have hlen : ps.length = k + 1 := by omega
        rw [hdrop, List.drop_eq_nil_of_le (by omega)]
        simp [emittedPatch, hkm, joinCommas]
      | succ cnt2 =>
        rw [hdrop]
        by_cases hk1 : k + 1 < ps.length
        · have hdrop2 : ps.drop (k + 1) ≠ [] := by
            intro hc
            have := List.drop_eq_nil_iff.mp hc
            omega
          obtain ⟨q, qs, hq⟩ := List.exists_cons_of_ne_nil hdrop2
          rw [hq]
          simp only [emittedPatch, if_pos hkm, if_pos hk1, joinCommas]
          rw [← hq, ihc (k + 1) (by omega)]
        · have hdrop2 : ps.drop (k + 1) = [] :=
            List.drop_eq_nil_of_le (by omega)
          rw [hdrop2]
          simp only [emittedPatch, if_pos hkm, if_neg hk1, joinCommas]
          rw [ihc (k + 1) (by omega), hdrop2]
          simp [joinCommas]
    · rw [List.drop_eq_nil_of_le (by omega)]
      cases cnt with
      | zero => simp [emittedPatch, hkm, joinCommas]
      | succ cnt2 =>
        simp only [emittedPatch, if_neg hkm, joinCommas]
        have hk1 : ¬ (k + 1 < ps.length) := by omega
        rw [if_neg hk1, ihc k (by omega), List.drop_eq_nil_of_le (by omega)]
        simp [joinCommas]

/-- C5: in patch mode, when the patch supplies fewer values for a variable
than the source statement contains, every source literal-value token at a
position beyond the patch length is omitted from the emitted output once
the patch is exhausted: the emitted value region is exactly the rendered
patch values joined by the surviving separators (`&a x=1,2,3 /` patched
with `{a: {x: [9, 9]}}` emits the region `9,9`). -/
theorem patch_fewer_values_drops_source (vs : List String) (v o : String)
    (trail : List String) (ps : List String) (fuel : Nat)
    (hv : PlainTok v) (hvs : ∀ w ∈ vs, PlainTok w)
    (hps : ps ≠ []) (hpne : ∀ p ∈ ps, p ≠ "")
    (hm : ps.length ≤ vs.length + 1)
    (hfuel : 2 * vs.length + 2 ≤ fuel) :
    ∃ (vv2 : List (Option String)) (k2 : Nat) (pr : String),
      value_loop fuel ⟨sepToks vs trail, v, "=", o⟩
          (some (ps.map (fun p => (p, false)))) 0 [] none
        = some (⟨trail, "/", pr, o ++ joinCommas ps⟩, vv2, k2) := by
  obtain ⟨vv2, k2, pr, h⟩ := value_loop_emission vs fuel v "=" o 0 ps trail []
    none hv hvs hps hpne (Or.inl rfl) (Or.inl rfl) hfuel
  refine ⟨vv2, k2, pr, ?_⟩
  rw [h, emittedPatch_join ps (vs.length + 1) 0 (by omega)]
  simp

/-- Witness for `patch_fewer_values_drops_source`: the spec's Example 4 —
source values `1,2,3` patched with `[9, 9]` emit the region `9,9`, the
third source value silently dropped. -/
theorem patch_fewer_values_drops_source_witness :
    ∃ (vv2 : List (Option String)) (k2 : Nat) (pr : String),
      value_loop 8 ⟨[",", "2", ",", "3", "/"], "1", "=", ""⟩
          (some [("9", false), ("9", false)]) 0 [] none
        = some (⟨[], "/", pr, "9,9"⟩, vv2, k2) := by
  have h := patch_fewer_values_drops_source ["2", "3"] "1" "" [] ["9", "9"] 8
    (by decide) (by decide) (by simp) (by decide) (by decide) (by decide)
  simpa [sepToks, joinCommas] using h

end F90nml

